import Mathlib

/-!
Verification of the streaming UBX frame parser (`src/ublox/src/parser.rs`).

The embedding models:
* byte buffers (`Buffer`) covering both `Vec<u8>` (growable) and
  `FixedLinearBuffer` (fixed capacity) implementations of `UnderlyingBuffer`;
* `Parser::consume`, which merges buffered and fresh bytes and positions the
  frame iterator's starting cursor;
* `ParserIter::next`, the frame-scanning loop, as a single scan step
  (`scanStep`) iterated with fuel (`pnextF`), the loop body being a direct
  transcription of the Rust `while` loop;
* the drain-on-drop disposal of the iterator (`consumeAll`).

Bytes are modelled as `Nat` (the source only ever stores `u8` values obtained
from the input slices, so no arithmetic overflow modelling is needed; the
checksum arithmetic carries explicit `% 256`).
-/

namespace UbloxSpec

def SYNC_CHAR_1 : Nat := 0xB5

def SYNC_CHAR_2 : Nat := 0x62

/-- The value `usize::MAX`, reported by `Vec<u8>::max_capacity`. -/
def USIZE_MAX : Nat := 2 ^ 64 - 1

/-- Modelled from the spec: `MAX_PAYLOAD_LEN` lives in the (missing)
`ubx_packets` module; the spec fixes it as "a fixed ceiling, at least 1240"
and the repository test `test_max_payload_len` asserts `MAX_PAYLOAD_LEN >= 1240`.
We take the protocol-defined value 1240. -/
def MAX_PAYLOAD_LEN : Nat := 1240

/-- Modelled from the spec: the checksum collaborator `ubx_checksum` lives in
the (missing) `ubx_packets` module; the spec describes it as "an 8-bit
two-accumulator running checksum" over the class/id/length/payload region.
This is the standard UBX Fletcher variant (`ck_a += byte; ck_b += ck_a`, both
mod 256); the spec's own scenario frame `B5 62 05 01 02 00 04 05 11 38`
checks out against it. -/
def ubx_checksum (bytes : List Nat) : Nat × Nat :=
  bytes.foldl (fun ck x => ((ck.1 + x) % 256, (ck.2 + (ck.1 + x) % 256) % 256)) (0, 0)

/-- The type `ParserError`: the two parser-level error kinds produced by the frame
iterator (`error.rs` is outside the provided sources, but the two variants,
their fields and their construction sites are all in `parser.rs`). -/
inductive ParserError where
  | outOfMemory (required_size : Nat)
  | invalidChecksum (expect got : Nat)
deriving DecidableEq, Repr

/-- One item yielded by `ParserIter::next`.  Modelled from the spec: the
dispatch collaborator `match_packet(class, id, payload)` is a pure function
invoked once per checksum-verified frame; we record its arguments
(`msg class id payload`) instead of its opaque result. -/
inductive ParseOutput where
  | msg (class_id msg_id : Nat) (payload : List Nat)
  | perr (e : ParserError)
deriving DecidableEq, Repr

/-- First index of `v` in the list: `Vec`'s `iter().position(..)` and
`FixedLinearBuffer::find`'s linear scan. -/
def listFind (v : Nat) : List Nat → Option Nat
  | [] => none
  | x :: xs => if x = v then some 0 else (listFind v xs).map (· + 1)

/-- A byte buffer: the logical content plus the constructed capacity.
`growable = true` models `Vec<u8>` (constructed with `cap = USIZE_MAX`);
`growable = false` models `FixedLinearBuffer` over a region of size `cap`. -/
structure Buffer where
  data : List Nat
  cap : Nat
  growable : Bool
deriving DecidableEq, Repr

def Buffer.len (b : Buffer) : Nat := b.data.length

def Buffer.clear (b : Buffer) : Buffer := { b with data := [] }

def Buffer.max_capacity (b : Buffer) : Nat := b.cap

/-- Append `extend_from_slice`: `Vec` appends everything and reports 0 truncated;
`FixedLinearBuffer` copies `min(other.len(), capacity - len)` bytes and
reports the rest. Returns (new buffer, truncated count). -/
def Buffer.extend_from_slice (b : Buffer) (other : List Nat) : Buffer × Nat :=
  if b.growable then ({ b with data := b.data ++ other }, 0)
  else
    let to_copy := min other.length (b.cap - b.data.length)
    ({ b with data := b.data ++ other.take to_copy }, other.length - to_copy)

/-- Drain `drain(count)` removes the first `count` bytes (clearing entirely when
`count ≥ len`), keeping the remainder in order. -/
def Buffer.drain (b : Buffer) (count : Nat) : Buffer :=
  { b with data := b.data.drop count }

def Buffer.find (b : Buffer) (v : Nat) : Option Nat := listFind v b.data

/-- An empty `FixedLinearBuffer` over a caller-supplied region of `cap` bytes. -/
def fixedBuffer (cap : Nat) : Buffer := ⟨[], cap, false⟩

/-- Default `Parser::default()`: an empty `Vec<u8>`-backed buffer. -/
def vecBuffer : Buffer := ⟨[], USIZE_MAX, true⟩

/-- Result of one pass through the body of the `while` loop in
`ParserIter::next`: `yield` = `return Some(..)` with the new cursor,
`stall` = `return None` (cursor untouched), `skip` = `continue` with the
new cursor. -/
inductive Step where
  | yield (r : ParseOutput) (o : Nat)
  | stall
  | skip (o : Nat)
deriving DecidableEq, Repr

/-- The cursor carried by a non-`stall` step (proof bookkeeping only). -/
def Step.offOf : Step → Option Nat
  | .yield _ o => some o
  | .stall => none
  | .skip o => some o

/-- Shift the cursor of a step down by `k` (proof bookkeeping only). -/
def Step.shiftDown : Step → Nat → Step
  | .yield r o, k => .yield r (o - k)
  | .stall, _ => .stall
  | .skip o, k => .skip (o - k)

/-- The body of the `while self.off < self.buf.len()` loop of
`ParserIter::next`, transcribed line by line from `parser.rs`. -/
def scanStep (buf : List Nat) (cap off : Nat) : Step :=
  if off < buf.length then
    let data := buf.drop off
    match listFind SYNC_CHAR_1 data with
    | none => .stall
    | some pos =>
      let maybe_pack := data.drop pos
      if maybe_pack.length ≤ 1 then .stall
      else if maybe_pack.getD 1 0 ≠ SYNC_CHAR_2 then .skip (off + pos + 2)
      else if maybe_pack.length ≤ 5 then .stall
      else
        let pack_len := maybe_pack.getD 4 0 + 256 * maybe_pack.getD 5 0
        if cap < pack_len + 6 + 2 then
          .yield (.perr (.outOfMemory (pack_len + 6 + 2))) (off + pos + 2)
        else if MAX_PAYLOAD_LEN < pack_len then .skip (off + pos + 2)
        else if maybe_pack.length < pack_len + 6 + 2 then .stall
        else
          let ck := ubx_checksum ((maybe_pack.drop 2).take (4 + pack_len))
          let expect_a := maybe_pack.getD (6 + pack_len) 0
          let expect_b := maybe_pack.getD (6 + pack_len + 1) 0
          if ck ≠ (expect_a, expect_b) then
            .yield (.perr (.invalidChecksum (expect_a + 256 * expect_b)
              (ck.1 + 256 * ck.2))) (off + pos + 2)
          else
            .yield (.msg (maybe_pack.getD 2 0) (maybe_pack.getD 3 0)
              ((maybe_pack.drop 6).take pack_len)) (off + pos + 6 + pack_len + 2)
  else .stall

/-- Iterator step `ParserIter::next` with explicit fuel for the `continue` steps: returns
the yielded value (if any) and the cursor afterwards.  Every `continue`
advances the cursor by at least 2, so fuel `buf.length` always suffices. -/
def pnextF : Nat → List Nat → Nat → Nat → Option ParseOutput × Nat
  | 0, _, _, off => (none, off)
  | f + 1, buf, cap, off =>
    match scanStep buf cap off with
    | .yield r o => (some r, o)
    | .stall => (none, off)
    | .skip o => pnextF f buf cap o

/-- Iterator step `ParserIter::next` (canonical fuel). -/
def pnextL (buf : List Nat) (cap off : Nat) : Option ParseOutput × Nat :=
  pnextF buf.length buf cap off

/-- Repeatedly calling `next` until it returns `None` ("fully draining" the
iterator), with explicit fuel; every yield advances the cursor by at least 2,
so fuel `buf.length + 1` always suffices.  Returns the yielded sequence and
the final cursor. -/
def runF : Nat → List Nat → Nat → Nat → List ParseOutput × Nat
  | 0, _, _, off => ([], off)
  | f + 1, buf, cap, off =>
    match pnextL buf cap off with
    | (none, o) => ([], o)
    | (some r, o) =>
      let rest := runF f buf cap o
      (r :: rest.1, rest.2)

/-- Fully draining the iterator (canonical fuel). -/
def runL (buf : List Nat) (cap off : Nat) : List ParseOutput × Nat :=
  runF (buf.length + 1) buf cap off

/-- Merge step `Parser::consume`: merges buffered and fresh bytes, returning the buffer
handed to the iterator together with the iterator's starting cursor. -/
def Parser.consume (b : Buffer) (new_data : List Nat) : Buffer × Nat :=
  let start_idx :=
    match b.find SYNC_CHAR_1 with
    | some idx => some idx
    | none => (listFind SYNC_CHAR_1 new_data).map (· + b.len)
  match start_idx with
  | some off =>
    if b.len ≤ off then
      let off2 := off - b.len
      let b2 := (b.clear.extend_from_slice (new_data.drop off2)).1
      (b2, 0)
    else
      ((b.extend_from_slice new_data).1, off)
  | none => (b.clear, 0)

/-- One full `consume` call: build the iterator, drain it, and perform the
iterator's `Drop` (`if off <= len { drain(off) }`).  Returns the yielded
sequence and the parser's buffer afterwards. -/
def consumeAll (b : Buffer) (new_data : List Nat) : List ParseOutput × Buffer :=
  let s := Parser.consume b new_data
  let r := runL s.1.data s.1.cap s.2
  (r.1, if r.2 ≤ s.1.data.length then s.1.drain r.2 else s.1)

/-- Successive `consume` calls, each iterator fully drained before the next. -/
def feedAll (b : Buffer) (chunks : List (List Nat)) : List ParseOutput × Buffer :=
  match chunks with
  | [] => ([], b)
  | c :: cs =>
    let r := consumeAll b c
    let rest := feedAll r.2 cs
    (r.1 ++ rest.1, rest.2)

/-- The minimal valid frame from the spec scenario and the
`parser_oom_processes_multiple_small_packets` test:
`B5 62 05 01 02 00 04 05 11 38`. -/
def minimalFrame : List Nat := [0xB5, 0x62, 0x05, 0x01, 0x02, 0x00, 0x04, 0x05, 0x11, 0x38]

/-- Five consecutive copies of `minimalFrame` (50 bytes). -/
def fiveFrames : List Nat :=
  minimalFrame ++ minimalFrame ++ minimalFrame ++ minimalFrame ++ minimalFrame

-- Sanity checks on the embedding (concrete evaluation).
example : ubx_checksum [0x05, 0x01, 0x02, 0x00, 0x04, 0x05] = (0x11, 0x38) := by decide

example : consumeAll vecBuffer minimalFrame =
    ([.msg 5 1 [4, 5]], ⟨[], USIZE_MAX, true⟩) := by decide

example : (consumeAll (fixedBuffer 10) fiveFrames).1 = [.msg 5 1 [4, 5]] := by decide

example : (feedAll (fixedBuffer 10)
    [minimalFrame, minimalFrame, minimalFrame, minimalFrame, minimalFrame]).1 =
    [.msg 5 1 [4, 5], .msg 5 1 [4, 5], .msg 5 1 [4, 5], .msg 5 1 [4, 5], .msg 5 1 [4, 5]] := by
  decide

example : consumeAll vecBuffer [0xB5, 0xB5, 0x00, 0xB5, 0x62] =
    ([], ⟨[0x00, 0xB5, 0x62], USIZE_MAX, true⟩) := by decide

/-! ### Helper lemmas about `listFind` and lists -/

theorem listFind_eq_none_iff {v : Nat} {l : List Nat} :
    listFind v l = none ↔ ∀ x ∈ l, x ≠ v := by
  induction l with
  | nil => simp [listFind]
  | cons x xs ih =>
    by_cases h : x = v <;> simp [listFind, h, ih]

theorem listFind_bound {v : Nat} {l : List Nat} {i : Nat} (h : listFind v l = some i) :
    i < l.length := by
  induction l generalizing i with
  | nil => simp [listFind] at h
  | cons x xs ih =>
    simp only [listFind] at h
    by_cases hx : x = v
    · rw [if_pos hx] at h
      injection h with h
      simp only [List.length_cons]
      omega
    · rw [if_neg hx, Option.map_eq_some'] at h
      obtain ⟨j, hj, rfl⟩ := h
      have := ih hj
      simp only [List.length_cons]
      omega

theorem listFind_some_drop {v : Nat} {l : List Nat} {i : Nat} (h : listFind v l = some i) :
    ∃ t, l.drop i = v :: t := by
  induction l generalizing i with
  | nil => simp [listFind] at h
  | cons x xs ih =>
    by_cases hx : x = v
    · simp [listFind, hx] at h
      subst h
      exact ⟨xs, by simp [hx]⟩
    · simp [listFind, hx] at h
      obtain ⟨j, hj, rfl⟩ := h
      simpa using ih hj

theorem listFind_append_some {v : Nat} {l₁ l₂ : List Nat} {i : Nat}
    (h : listFind v l₁ = some i) : listFind v (l₁ ++ l₂) = some i := by
  induction l₁ generalizing i with
  | nil => simp [listFind] at h
  | cons x xs ih =>
    by_cases hx : x = v
    · simp [listFind, hx] at h ⊢
      omega
    · simp [listFind, hx] at h ⊢
      obtain ⟨j, hj, rfl⟩ := h
      exact ⟨j, ih hj, rfl⟩

theorem listFind_append_none {v : Nat} {l₁ l₂ : List Nat}
    (h : listFind v l₁ = none) :
    listFind v (l₁ ++ l₂) = (listFind v l₂).map (· + l₁.length) := by
  induction l₁ with
  | nil =>
    cases hf : listFind v l₂ <;> simp [hf]
  | cons x xs ih =>
    by_cases hx : x = v
    · simp [listFind, hx] at h
    · rw [listFind, if_neg hx, Option.map_eq_none'] at h
      rw [List.cons_append, listFind, if_neg hx, ih h, Option.map_map]
      cases hf : listFind v l₂
      · simp [hf]
      · simp only [hf, Option.map_some', Function.comp_apply, List.length_cons,
          Option.some.injEq]
        omega

theorem take_min_length (l : List Nat) (c : Nat) :
    l.take (min l.length c) = l.take c := by
  rcases Nat.le_total l.length c with h | h
  · rw [Nat.min_eq_left h, List.take_of_length_le (Nat.le_refl _),
      List.take_of_length_le h]
  · rw [Nat.min_eq_right h]

/-! ### Lemmas about one scan step -/

theorem scanStep_stall_of_le {buf : List Nat} {cap off : Nat}
    (h : buf.length ≤ off) : scanStep buf cap off = .stall := by
  simp only [scanStep, if_neg (by omega : ¬ off < buf.length)]

theorem scanStep_offOf_bounds {buf : List Nat} {cap off o : Nat}
    (h : (scanStep buf cap off).offOf = some o) :
    off < buf.length ∧ off + 2 ≤ o ∧ o ≤ buf.length := by
  by_cases hoff : off < buf.length
  · rcases hfind : listFind SYNC_CHAR_1 (buf.drop off) with _ | pos
    · simp only [scanStep, if_pos hoff, hfind] at h
      simp [Step.offOf] at h
    · simp only [scanStep, if_pos hoff, hfind] at h
      have hpos : pos < (buf.drop off).length := listFind_bound hfind
      have hd : (buf.drop off).length = buf.length - off := List.length_drop _ _
      have hmp : ((buf.drop off).drop pos).length = (buf.drop off).length - pos :=
        List.length_drop _ _
      refine ⟨hoff, ?_⟩
      split_ifs at h with h1 h2 h3 h4 h5 h6 h7 <;>
        simp only [Step.offOf, Option.some.injEq] at h <;>
        first
        | exact Option.noConfusion h
        | omega
  · rw [scanStep_stall_of_le (by omega)] at h
    simp [Step.offOf] at h

theorem scanStep_yield_bounds {buf : List Nat} {cap off o : Nat} {r : ParseOutput}
    (h : scanStep buf cap off = .yield r o) :
    off < buf.length ∧ off + 2 ≤ o ∧ o ≤ buf.length :=
  scanStep_offOf_bounds (by rw [h]; rfl)

theorem scanStep_skip_bounds {buf : List Nat} {cap off o : Nat}
    (h : scanStep buf cap off = .skip o) :
    off < buf.length ∧ off + 2 ≤ o ∧ o ≤ buf.length :=
  scanStep_offOf_bounds (by rw [h]; rfl)

theorem scanStep_append {buf : List Nat} {cap off : Nat} (ext : List Nat)
    (h : scanStep buf cap off ≠ .stall) :
    scanStep (buf ++ ext) cap off = scanStep buf cap off := by
  by_cases hoff : off < buf.length
  · have hoffB : off < (buf ++ ext).length := by
      simp only [List.length_append]; omega
    rcases hfind : listFind SYNC_CHAR_1 (buf.drop off) with _ | pos
    · exact absurd (by simp only [scanStep, if_pos hoff, hfind]) h
    · have hposb : pos < (buf.drop off).length := listFind_bound hfind
      have hdata : (buf ++ ext).drop off = buf.drop off ++ ext :=
        List.drop_append_of_le_length (Nat.le_of_lt hoff)
      have hfindB : listFind SYNC_CHAR_1 (buf.drop off ++ ext) = some pos :=
        listFind_append_some hfind
      have hmpB : (buf.drop off ++ ext).drop pos = (buf.drop off).drop pos ++ ext :=
        List.drop_append_of_le_length (Nat.le_of_lt hposb)
      simp only [scanStep, if_pos hoff, if_pos hoffB, hdata, hfind, hfindB, hmpB]
      have hlen : ((buf.drop off).drop pos ++ ext).length
          = ((buf.drop off).drop pos).length + ext.length := List.length_append _ _
      by_cases h1 : ((buf.drop off).drop pos).length ≤ 1
      · exact absurd (by simp only [scanStep, if_pos hoff, hfind, if_pos h1]) h
      · rw [if_neg (by omega : ¬ ((buf.drop off).drop pos ++ ext).length ≤ 1),
          if_neg h1,
          List.getD_append _ _ _ _ (by omega : 1 < ((buf.drop off).drop pos).length)]
        by_cases h2 : ((buf.drop off).drop pos).getD 1 0 ≠ SYNC_CHAR_2
        · rw [if_pos h2, if_pos h2]
        · rw [if_neg h2, if_neg h2]
          by_cases h3 : ((buf.drop off).drop pos).length ≤ 5
          · exact absurd (by
              simp only [scanStep, if_pos hoff, hfind, if_neg h1, if_neg h2, if_pos h3]) h
          · rw [if_neg (by omega : ¬ ((buf.drop off).drop pos ++ ext).length ≤ 5),
              if_neg h3,
              List.getD_append _ _ _ _ (by omega : 4 < ((buf.drop off).drop pos).length),
              List.getD_append _ _ _ _ (by omega : 5 < ((buf.drop off).drop pos).length)]
            by_cases h4 : cap < ((buf.drop off).drop pos).getD 4 0
                + 256 * ((buf.drop off).drop pos).getD 5 0 + 6 + 2
            · rw [if_pos h4, if_pos h4]
            · rw [if_neg h4, if_neg h4]
              by_cases h5 : MAX_PAYLOAD_LEN < ((buf.drop off).drop pos).getD 4 0
                  + 256 * ((buf.drop off).drop pos).getD 5 0
              · rw [if_pos h5, if_pos h5]
              · rw [if_neg h5, if_neg h5]
                by_cases h6 : ((buf.drop off).drop pos).length
                    < ((buf.drop off).drop pos).getD 4 0
                      + 256 * ((buf.drop off).drop pos).getD 5 0 + 6 + 2
                · exact absurd (by
                    simp only [scanStep, if_pos hoff, hfind, if_neg h1, if_neg h2,
                      if_neg h3, if_neg h4, if_neg h5, if_pos h6]) h
                · rw [if_neg (by omega :
                      ¬ ((buf.drop off).drop pos ++ ext).length
                        < ((buf.drop off).drop pos).getD 4 0
                          + 256 * ((buf.drop off).drop pos).getD 5 0 + 6 + 2),
                    if_neg h6]
                  have hdrop2 : ((buf.drop off).drop pos ++ ext).drop 2
                      = ((buf.drop off).drop pos).drop 2 ++ ext :=
                    List.drop_append_of_le_length (by omega)
                  have htake : (((buf.drop off).drop pos).drop 2 ++ ext).take
                        (4 + (((buf.drop off).drop pos).getD 4 0
                          + 256 * ((buf.drop off).drop pos).getD 5 0))
                      = (((buf.drop off).drop pos).drop 2).take
                        (4 + (((buf.drop off).drop pos).getD 4 0
                          + 256 * ((buf.drop off).drop pos).getD 5 0)) :=
                    List.take_append_of_le_length
                      (by
                        have : (((buf.drop off).drop pos).drop 2).length
                            = ((buf.drop off).drop pos).length - 2 := List.length_drop _ _
                        omega)
                  have hdrop6 : ((buf.drop off).drop pos ++ ext).drop 6
                      = ((buf.drop off).drop pos).drop 6 ++ ext :=
                    List.drop_append_of_le_length (by omega)
                  have htake6 : (((buf.drop off).drop pos).drop 6 ++ ext).take
                        (((buf.drop off).drop pos).getD 4 0
                          + 256 * ((buf.drop off).drop pos).getD 5 0)
                      = (((buf.drop off).drop pos).drop 6).take
                        (((buf.drop off).drop pos).getD 4 0
                          + 256 * ((buf.drop off).drop pos).getD 5 0) :=
                    List.take_append_of_le_length
                      (by
                        have : (((buf.drop off).drop pos).drop 6).length
                            = ((buf.drop off).drop pos).length - 6 := List.length_drop _ _
                        omega)
                  rw [hdrop2, htake, hdrop6, htake6,
                    List.getD_append _ _ _ _ (by omega :
                      6 + (((buf.drop off).drop pos).getD 4 0
                        + 256 * ((buf.drop off).drop pos).getD 5 0)
                        < ((buf.drop off).drop pos).length),
                    List.getD_append _ _ _ _ (by omega :
                      6 + (((buf.drop off).drop pos).getD 4 0
                        + 256 * ((buf.drop off).drop pos).getD 5 0) + 1
                        < ((buf.drop off).drop pos).length),
                    List.getD_append _ _ _ _
                      (by omega : 2 < ((buf.drop off).drop pos).length),
                    List.getD_append _ _ _ _
                      (by omega : 3 < ((buf.drop off).drop pos).length)]
  · exact absurd (scanStep_stall_of_le (by omega)) h

theorem scanStep_shift {buf : List Nat} {cap off k : Nat} (hk : k ≤ off) :
    scanStep (buf.drop k) cap (off - k) = (scanStep buf cap off).shiftDown k := by
  have hdd : (buf.drop k).drop (off - k) = buf.drop off := by
    rw [List.drop_drop]
    congr 1
    omega
  have hlen : (buf.drop k).length = buf.length - k := List.length_drop _ _
  by_cases hoff : off < buf.length
  · have hoffk : off - k < (buf.drop k).length := by omega
    simp only [scanStep, if_pos hoff, if_pos hoffk, hdd]
    rcases hfind : listFind SYNC_CHAR_1 (buf.drop off) with _ | pos
    · simp only [hfind]
      rfl
    · simp only [hfind]
      split_ifs <;>
        first
        | rfl
        | (simp only [Step.shiftDown, Step.yield.injEq, Step.skip.injEq,
            eq_self_iff_true, true_and]
           omega)
  · have : ¬ off - k < (buf.drop k).length := by omega
    simp only [scanStep, if_neg hoff, if_neg this, Step.shiftDown]

theorem scanStep_skipSync {buf : List Nat} {cap off p : Nat}
    (hfind : listFind SYNC_CHAR_1 (buf.drop off) = some p) :
    scanStep buf cap (off + p) = scanStep buf cap off := by
  have hb : p < (buf.drop off).length := listFind_bound hfind
  have hld : (buf.drop off).length = buf.length - off := List.length_drop _ _
  have hoff : off < buf.length := by omega
  have hoffp : off + p < buf.length := by omega
  have hdd : buf.drop (off + p) = (buf.drop off).drop p := by
    rw [List.drop_drop]
  obtain ⟨t, ht⟩ := listFind_some_drop hfind
  have hfind2 : listFind SYNC_CHAR_1 ((buf.drop off).drop p) = some 0 := by
    rw [ht]
    simp [listFind]
  simp only [scanStep, if_pos hoff, if_pos hoffp, hfind, hdd, hfind2, List.drop_zero,
    Nat.add_zero]

/-! ### Lemmas about `pnextF` / `pnextL` -/

theorem pnextF_le : ∀ (f : Nat) {buf : List Nat} {cap off : Nat},
    off ≤ buf.length → (pnextF f buf cap off).2 ≤ buf.length := by
  intro f
  induction f with
  | zero => intro buf cap off h; exact h
  | succ f ih =>
    intro buf cap off h
    cases hs : scanStep buf cap off with
    | yield r o => simpa [pnextF, hs] using (scanStep_yield_bounds hs).2.2
    | stall => simpa [pnextF, hs] using h
    | skip o =>
      have hb := scanStep_skip_bounds hs
      simpa [pnextF, hs] using ih (by omega)

theorem pnextF_some_bounds : ∀ (f : Nat) {buf : List Nat} {cap off o : Nat}
    {r : ParseOutput}, pnextF f buf cap off = (some r, o) →
    off + 2 ≤ o ∧ o ≤ buf.length := by
  intro f
  induction f with
  | zero =>
    intro buf cap off o r h
    exact absurd h (by simp [pnextF])
  | succ f ih =>
    intro buf cap off o r h
    cases hs : scanStep buf cap off with
    | yield r' o' =>
      simp only [pnextF, hs, Prod.mk.injEq, Option.some.injEq] at h
      obtain ⟨-, h2⟩ := h
      have := scanStep_yield_bounds hs
      omega
    | stall => simp [pnextF, hs] at h
    | skip o' =>
      simp only [pnextF, hs] at h
      have h1 := scanStep_skip_bounds hs
      have h2 := ih h
      omega

theorem pnextF_congr : ∀ (f g : Nat) {buf : List Nat} {cap off : Nat},
    buf.length ≤ off + f → buf.length ≤ off + g →
    pnextF f buf cap off = pnextF g buf cap off := by
  intro f
  induction f with
  | zero =>
    intro g buf cap off hf hg
    cases g with
    | zero => rfl
    | succ g =>
      simp [pnextF, scanStep_stall_of_le (by omega : buf.length ≤ off)]
  | succ f ih =>
    intro g buf cap off hf hg
    cases g with
    | zero =>
      simp [pnextF, scanStep_stall_of_le (by omega : buf.length ≤ off)]
    | succ g =>
      cases hs : scanStep buf cap off with
      | yield r o => simp [pnextF, hs]
      | stall => simp [pnextF, hs]
      | skip o =>
        have hb := scanStep_skip_bounds hs
        simp only [pnextF, hs]
        exact ih g (by omega) (by omega)

theorem pnextL_of_le {buf : List Nat} {cap off : Nat} (h : buf.length ≤ off) :
    pnextL buf cap off = (none, off) := by
  rw [pnextL]
  cases hl : buf.length with
  | zero => rfl
  | succ n =>
    simp [pnextF, scanStep_stall_of_le (by omega : buf.length ≤ off)]

theorem pnextL_yield {buf : List Nat} {cap off o : Nat} {r : ParseOutput}
    (hs : scanStep buf cap off = .yield r o) : pnextL buf cap off = (some r, o) := by
  have hoff := (scanStep_yield_bounds hs).1
  rw [pnextL]
  obtain ⟨n, hn⟩ : ∃ n, buf.length = n + 1 := ⟨buf.length - 1, by omega⟩
  rw [hn]
  simp [pnextF, hs]

theorem pnextL_stall {buf : List Nat} {cap off : Nat}
    (hs : scanStep buf cap off = .stall) : pnextL buf cap off = (none, off) := by
  rw [pnextL]
  cases hl : buf.length with
  | zero => rfl
  | succ n => simp [pnextF, hs]

theorem pnextL_skip {buf : List Nat} {cap off o : Nat}
    (hs : scanStep buf cap off = .skip o) : pnextL buf cap off = pnextL buf cap o := by
  have hb := scanStep_skip_bounds hs
  rw [pnextL, pnextL]
  obtain ⟨n, hn⟩ : ∃ n, buf.length = n + 1 := ⟨buf.length - 1, by omega⟩
  rw [hn]
  have : pnextF (n + 1) buf cap off = pnextF n buf cap o := by simp [pnextF, hs]
  rw [this]
  exact pnextF_congr n (n + 1) (by omega) (by omega)

theorem pnextF_append_some : ∀ (f : Nat) {g : Nat} {buf ext : List Nat}
    {cap off o : Nat} {r : ParseOutput},
    pnextF f buf cap off = (some r, o) → f ≤ g →
    pnextF g (buf ++ ext) cap off = (some r, o) := by
  intro f
  induction f with
  | zero =>
    intro g buf ext cap off o r h
    exact absurd h (by simp [pnextF])
  | succ f ih =>
    intro g buf ext cap off o r h hfg
    obtain ⟨g', rfl⟩ : ∃ g', g = g' + 1 := ⟨g - 1, by omega⟩
    cases hs : scanStep buf cap off with
    | yield r' o' =>
      have hA : scanStep (buf ++ ext) cap off = .yield r' o' := by
        rw [scanStep_append ext (by simp [hs])]
        exact hs
      simp only [pnextF, hs] at h
      simpa [pnextF, hA] using h
    | stall => simp [pnextF, hs] at h
    | skip o' =>
      have hA : scanStep (buf ++ ext) cap off = .skip o' := by
        rw [scanStep_append ext (by simp [hs])]
        exact hs
      simp only [pnextF, hs] at h
      simp only [pnextF, hA]
      exact ih h (by omega)

theorem pnextF_append_none : ∀ (f : Nat) {g : Nat} {buf ext : List Nat}
    {cap off o : Nat},
    pnextF f buf cap off = (none, o) → buf.length ≤ off + f →
    (buf ++ ext).length ≤ off + g →
    pnextF g (buf ++ ext) cap off = pnextF g (buf ++ ext) cap o := by
  intro f
  induction f with
  | zero =>
    intro g buf ext cap off o h hf hg
    simp only [pnextF, Prod.mk.injEq] at h
    rw [h.2]
  | succ f ih =>
    intro g buf ext cap off o h hf hg
    cases hs : scanStep buf cap off with
    | yield r' o' => simp [pnextF, hs] at h
    | stall =>
      simp only [pnextF, hs, Prod.mk.injEq] at h
      rw [h.2]
    | skip o' =>
      have hb := scanStep_skip_bounds hs
      have hBlen : buf.length ≤ (buf ++ ext).length := by
        simp [List.length_append]
      obtain ⟨g', rfl⟩ : ∃ g', g = g' + 1 := ⟨g - 1, by omega⟩
      have hA : scanStep (buf ++ ext) cap off = .skip o' := by
        rw [scanStep_append ext (by simp [hs])]
        exact hs
      simp only [pnextF, hs] at h
      have step1 : pnextF (g' + 1) (buf ++ ext) cap off = pnextF g' (buf ++ ext) cap o' := by
        simp [pnextF, hA]
      rw [step1, pnextF_congr g' (g' + 1) (by omega) (by omega)]
      exact ih h (by omega) (by omega)

theorem pnextL_some_bounds {buf : List Nat} {cap off o : Nat} {r : ParseOutput}
    (h : pnextL buf cap off = (some r, o)) : off + 2 ≤ o ∧ o ≤ buf.length :=
  pnextF_some_bounds buf.length h

theorem pnextL_le {buf : List Nat} {cap off : Nat} (h : off ≤ buf.length) :
    (pnextL buf cap off).2 ≤ buf.length :=
  pnextF_le buf.length h

theorem pnextL_append_some {buf ext : List Nat} {cap off o : Nat} {r : ParseOutput}
    (h : pnextL buf cap off = (some r, o)) :
    pnextL (buf ++ ext) cap off = (some r, o) :=
  pnextF_append_some buf.length h (by simp [List.length_append])

theorem pnextL_append_none {buf ext : List Nat} {cap off o : Nat}
    (h : pnextL buf cap off = (none, o)) :
    pnextL (buf ++ ext) cap off = pnextL (buf ++ ext) cap o :=
  pnextF_append_none buf.length h (by omega) (by omega)

theorem pnextF_shift : ∀ (f : Nat) {buf : List Nat} {cap off k : Nat}, k ≤ off →
    pnextF f (buf.drop k) cap (off - k)
      = ((pnextF f buf cap off).1, (pnextF f buf cap off).2 - k) := by
  intro f
  induction f with
  | zero => intro buf cap off k hk; rfl
  | succ f ih =>
    intro buf cap off k hk
    have hshift := @scanStep_shift buf cap off k hk
    cases hs : scanStep buf cap off with
    | yield r o =>
      rw [hs] at hshift
      simp [pnextF, hshift, hs, Step.shiftDown]
    | stall =>
      rw [hs] at hshift
      simp [pnextF, hshift, hs, Step.shiftDown]
    | skip o =>
      rw [hs] at hshift
      have hb := scanStep_skip_bounds hs
      simp only [pnextF, hshift, hs, Step.shiftDown]
      exact ih (by omega)

theorem pnextL_shift {buf : List Nat} {cap off k : Nat} (hk : k ≤ off) :
    pnextL (buf.drop k) cap (off - k)
      = ((pnextL buf cap off).1, (pnextL buf cap off).2 - k) := by
  rw [pnextL, pnextL]
  have hld : (buf.drop k).length = buf.length - k := List.length_drop _ _
  rw [hld, pnextF_congr (buf.length - k) buf.length (by omega) (by omega)]
  exact pnextF_shift buf.length hk

theorem pnextL_skipSync {buf : List Nat} {cap off p : Nat}
    (hfind : listFind SYNC_CHAR_1 (buf.drop off) = some p) :
    (pnextL buf cap off = (none, off) ∧ pnextL buf cap (off + p) = (none, off + p)) ∨
    pnextL buf cap off = pnextL buf cap (off + p) := by
  have hs := @scanStep_skipSync buf cap off p hfind
  cases hso : scanStep buf cap off with
  | yield r o => exact Or.inr (by rw [pnextL_yield hso, pnextL_yield (hs.trans hso)])
  | stall => exact Or.inl ⟨pnextL_stall hso, pnextL_stall (hs.trans hso)⟩
  | skip o => exact Or.inr ((pnextL_skip hso).trans (pnextL_skip (hs.trans hso)).symm)

/-! ### Lemmas about `runF` / `runL` -/

theorem runF_le : ∀ (f : Nat) {buf : List Nat} {cap off : Nat},
    off ≤ buf.length → (runF f buf cap off).2 ≤ buf.length := by
  intro f
  induction f with
  | zero => intro buf cap off h; exact h
  | succ f ih =>
    intro buf cap off h
    rcases hp : pnextL buf cap off with ⟨ro, o⟩
    cases ro with
    | none =>
      have : o ≤ buf.length := by
        have := @pnextL_le buf cap off h
        rw [hp] at this
        exact this
      simpa [runF, hp]
    | some r =>
      have hb := pnextL_some_bounds hp
      simpa [runF, hp] using ih (by omega)

theorem runL_le {buf : List Nat} {cap off : Nat} (h : off ≤ buf.length) :
    (runL buf cap off).2 ≤ buf.length :=
  runF_le (buf.length + 1) h

theorem runF_congr : ∀ (f g : Nat) {buf : List Nat} {cap off : Nat},
    buf.length < off + 2 * f → buf.length < off + 2 * g →
    runF f buf cap off = runF g buf cap off := by
  intro f
  induction f with
  | zero =>
    intro g buf cap off hf hg
    cases g with
    | zero => rfl
    | succ g => simp [runF, pnextL_of_le (by omega : buf.length ≤ off)]
  | succ f ih =>
    intro g buf cap off hf hg
    cases g with
    | zero => simp [runF, pnextL_of_le (by omega : buf.length ≤ off)]
    | succ g =>
      rcases hp : pnextL buf cap off with ⟨ro, o⟩
      cases ro with
      | none => simp [runF, hp]
      | some r =>
        have hb := pnextL_some_bounds hp
        simp only [runF, hp]
        rw [ih g (by omega) (by omega)]

theorem runL_of_pnextL_eq {buf : List Nat} {cap off1 off2 : Nat}
    (h : pnextL buf cap off1 = pnextL buf cap off2) :
    runL buf cap off1 = runL buf cap off2 := by
  rw [runL, runL]
  simp only [runF]
  rw [h]

theorem runF_append : ∀ (f : Nat) {buf ext : List Nat} {cap off : Nat}
    {rs : List ParseOutput} {o : Nat},
    buf.length < off + 2 * f → runF f buf cap off = (rs, o) →
    runL (buf ++ ext) cap off
      = (rs ++ (runL (buf ++ ext) cap o).1, (runL (buf ++ ext) cap o).2) := by
  intro f
  induction f with
  | zero =>
    intro buf ext cap off rs o hlen h
    simp only [runF, Prod.mk.injEq] at h
    rw [← h.1, ← h.2, List.nil_append]
  | succ f ih =>
    intro buf ext cap off rs o hlen h
    rcases hp : pnextL buf cap off with ⟨ro, o2⟩
    cases ro with
    | none =>
      simp only [runF, hp, Prod.mk.injEq] at h
      rw [← h.1, ← h.2, List.nil_append]
      exact runL_of_pnextL_eq (pnextL_append_none hp)
    | some r =>
      rcases hr2 : runF f buf cap o2 with ⟨rest, o3⟩
      simp only [runF, hp, hr2, Prod.mk.injEq] at h
      have hb := pnextL_some_bounds hp
      have hBlen : buf.length ≤ (buf ++ ext).length := by simp
      have hL : runL (buf ++ ext) cap off
          = (r :: (runL (buf ++ ext) cap o2).1, (runL (buf ++ ext) cap o2).2) := by
        rw [runL]
        simp only [runF, pnextL_append_some hp]
        rw [runF_congr (buf ++ ext).length ((buf ++ ext).length + 1)
          (by omega) (by omega)]
        rfl
      rw [hL, ih (by omega) hr2, ← h.1, ← h.2]
      simp

theorem runL_append {buf ext : List Nat} {cap off : Nat}
    {rs : List ParseOutput} {o : Nat} (h : runL buf cap off = (rs, o)) :
    runL (buf ++ ext) cap off
      = (rs ++ (runL (buf ++ ext) cap o).1, (runL (buf ++ ext) cap o).2) :=
  runF_append (buf.length + 1) (by omega) h

theorem runF_shift : ∀ (f : Nat) {buf : List Nat} {cap off k : Nat}, k ≤ off →
    runF f (buf.drop k) cap (off - k)
      = ((runF f buf cap off).1, (runF f buf cap off).2 - k) := by
  intro f
  induction f with
  | zero => intro buf cap off k hk; rfl
  | succ f ih =>
    intro buf cap off k hk
    have hps := @pnextL_shift buf cap off k hk
    rcases hp : pnextL buf cap off with ⟨ro, o⟩
    rw [hp] at hps
    cases ro with
    | none => simp [runF, hps, hp]
    | some r =>
      have hb := pnextL_some_bounds hp
      simp only [runF, hps, hp]
      rw [ih (by omega : k ≤ o)]

theorem runL_shift {buf : List Nat} {cap off k : Nat} (hk : k ≤ off) :
    runL (buf.drop k) cap (off - k)
      = ((runL buf cap off).1, (runL buf cap off).2 - k) := by
  rw [runL, runL]
  have hld : (buf.drop k).length = buf.length - k := List.length_drop _ _
  rw [hld, runF_congr (buf.length - k + 1) (buf.length + 1) (by omega) (by omega)]
  exact runF_shift (buf.length + 1) hk

theorem runL_skipSync {buf : List Nat} {cap off p : Nat}
    (hfind : listFind SYNC_CHAR_1 (buf.drop off) = some p) :
    (runL buf cap off).1 = (runL buf cap (off + p)).1 := by
  rcases @pnextL_skipSync buf cap off p hfind with ⟨h1, h2⟩ | h
  · rw [runL, runL]
    simp [runF, h1, h2]
  · rw [runL_of_pnextL_eq h]

/-! ### Lemmas about `Parser.consume` and `consumeAll` on the growable buffer -/

theorem scanStep_stall_of_no_sync {buf : List Nat} {cap off : Nat}
    (h : listFind SYNC_CHAR_1 (buf.drop off) = none) :
    scanStep buf cap off = .stall := by
  by_cases hoff : off < buf.length
  · simp only [scanStep, if_pos hoff, h]
  · exact scanStep_stall_of_le (by omega)

theorem runL_none {buf : List Nat} {cap off o : Nat}
    (h : pnextL buf cap off = (none, o)) : runL buf cap off = ([], o) := by
  rw [runL]
  simp [runF, h]

theorem consume_growable_some {C D : List Nat} {cap i : Nat}
    (hf : listFind SYNC_CHAR_1 C = some i) :
    Parser.consume ⟨C, cap, true⟩ D = (⟨C ++ D, cap, true⟩, i) := by
  have hi := listFind_bound hf
  simp only [Parser.consume, Buffer.find, hf]
  rw [if_neg (show ¬ (⟨C, cap, true⟩ : Buffer).len ≤ i by
    simp only [Buffer.len]
    omega)]
  simp [Buffer.extend_from_slice]

theorem consume_growable_new {C D : List Nat} {cap k : Nat}
    (hC : listFind SYNC_CHAR_1 C = none) (hD : listFind SYNC_CHAR_1 D = some k) :
    Parser.consume ⟨C, cap, true⟩ D = (⟨D.drop k, cap, true⟩, 0) := by
  simp [Parser.consume, Buffer.find, hC, hD, Buffer.len, Nat.le_add_left,
    Nat.add_sub_cancel, Buffer.clear, Buffer.extend_from_slice]

theorem consume_growable_none {C D : List Nat} {cap : Nat}
    (hC : listFind SYNC_CHAR_1 C = none) (hD : listFind SYNC_CHAR_1 D = none) :
    Parser.consume ⟨C, cap, true⟩ D = (⟨[], cap, true⟩, 0) := by
  simp [Parser.consume, Buffer.find, hC, hD, Buffer.clear]

theorem consumeAll_growable_some {C D : List Nat} {cap i : Nat}
    (hf : listFind SYNC_CHAR_1 C = some i) :
    consumeAll ⟨C, cap, true⟩ D
      = ((runL (C ++ D) cap i).1,
         ⟨(C ++ D).drop (runL (C ++ D) cap i).2, cap, true⟩) := by
  have hi := listFind_bound hf
  have hg : (runL (C ++ D) cap i).2 ≤ (C ++ D).length :=
    runL_le (by simp only [List.length_append]; omega)
  simp only [consumeAll, consume_growable_some hf]
  rw [if_pos hg]
  simp [Buffer.drain]

theorem consumeAll_growable_new {C D : List Nat} {cap k : Nat}
    (hC : listFind SYNC_CHAR_1 C = none) (hD : listFind SYNC_CHAR_1 D = some k) :
    consumeAll ⟨C, cap, true⟩ D
      = ((runL (D.drop k) cap 0).1,
         ⟨(D.drop k).drop (runL (D.drop k) cap 0).2, cap, true⟩) := by
  have hg : (runL (D.drop k) cap 0).2 ≤ (D.drop k).length := runL_le (by omega)
  simp only [consumeAll, consume_growable_new hC hD]
  rw [if_pos hg]
  simp [Buffer.drain]

theorem consumeAll_growable_none {C D : List Nat} {cap : Nat}
    (hC : listFind SYNC_CHAR_1 C = none) (hD : listFind SYNC_CHAR_1 D = none) :
    consumeAll ⟨C, cap, true⟩ D = ([], ⟨[], cap, true⟩) := by
  have hrun : runL ([] : List Nat) cap 0 = ([], 0) :=
    runL_none (pnextL_of_le (by simp))
  simp only [consumeAll, consume_growable_none hC hD]
  simp [hrun, Buffer.drain]

/-- Continuing a run past the end of `buf1` into appended bytes `E` yields the
same outputs as a fresh `consume` call on the drained carry-over buffer. -/
theorem run_consume_suffix {buf1 E : List Nat} {cap o1 : Nat}
    (h : o1 ≤ buf1.length) :
    (runL (buf1 ++ E) cap o1).1 = (consumeAll ⟨buf1.drop o1, cap, true⟩ E).1 := by
  have hdropA : (buf1 ++ E).drop o1 = buf1.drop o1 ++ E :=
    List.drop_append_of_le_length h
  have hshift := @runL_shift (buf1 ++ E) cap o1 o1 (Nat.le_refl o1)
  rw [Nat.sub_self, hdropA] at hshift
  have hmain : (runL (buf1 ++ E) cap o1).1 = (runL (buf1.drop o1 ++ E) cap 0).1 := by
    rw [hshift]
  rcases hf : listFind SYNC_CHAR_1 (buf1.drop o1) with _ | j
  · rcases hfE : listFind SYNC_CHAR_1 E with _ | k
    · rw [consumeAll_growable_none hf hfE, hmain]
      have hKE : listFind SYNC_CHAR_1 (buf1.drop o1 ++ E) = none := by
        rw [listFind_append_none hf, hfE]
        rfl
      have hstall : pnextL (buf1.drop o1 ++ E) cap 0 = (none, 0) := by
        by_cases hlen : (buf1.drop o1 ++ E).length ≤ 0
        · exact pnextL_of_le hlen
        · exact pnextL_stall (scanStep_stall_of_no_sync (by rw [List.drop_zero]; exact hKE))
      rw [runL_none hstall]
    · rw [consumeAll_growable_new hf hfE, hmain]
      have hKE : listFind SYNC_CHAR_1 (buf1.drop o1 ++ E) = some (k + (buf1.drop o1).length) := by
        rw [listFind_append_none hf, hfE]
        rfl
      have hsync := @runL_skipSync (buf1.drop o1 ++ E) cap 0
        (k + (buf1.drop o1).length) (by rw [List.drop_zero]; exact hKE)
      rw [Nat.zero_add] at hsync
      rw [hsync]
      have hcomm : k + (buf1.drop o1).length = (buf1.drop o1).length + k := Nat.add_comm _ _
      have hdrop : (buf1.drop o1 ++ E).drop (k + (buf1.drop o1).length) = E.drop k := by
        rw [hcomm, ← List.drop_drop, List.drop_left]
      have hshift2 := @runL_shift (buf1.drop o1 ++ E) cap
        (k + (buf1.drop o1).length) (k + (buf1.drop o1).length) (Nat.le_refl _)
      rw [Nat.sub_self, hdrop] at hshift2
      exact (congrArg Prod.fst hshift2).symm
  · rw [consumeAll_growable_some hf, hmain]
    have hsync := @runL_skipSync (buf1.drop o1 ++ E) cap 0 j
      (by rw [List.drop_zero]; exact @listFind_append_some SYNC_CHAR_1 (buf1.drop o1) E j hf)
    rw [Nat.zero_add] at hsync
    exact hsync

/-- Splitting one `consume` call in two (draining fully in between) yields the
same output sequence: the central invariance step. -/
theorem consumeAll_split (C D E : List Nat) (cap : Nat) :
    (consumeAll ⟨C, cap, true⟩ (D ++ E)).1
      = (consumeAll ⟨C, cap, true⟩ D).1
        ++ (consumeAll (consumeAll ⟨C, cap, true⟩ D).2 E).1 := by
  rcases hfC : listFind SYNC_CHAR_1 C with _ | i
  · rcases hfD : listFind SYNC_CHAR_1 D with _ | k
    · rcases hfE : listFind SYNC_CHAR_1 E with _ | k2
      · have hDE : listFind SYNC_CHAR_1 (D ++ E) = none := by
          rw [listFind_append_none hfD, hfE]
          rfl
        rw [consumeAll_growable_none hfC hDE, consumeAll_growable_none hfC hfD]
        rw [consumeAll_growable_none (by rfl) hfE]
        simp
      · have hDE : listFind SYNC_CHAR_1 (D ++ E) = some (k2 + D.length) := by
          rw [listFind_append_none hfD, hfE]
          rfl
        rw [consumeAll_growable_new hfC hDE, consumeAll_growable_none hfC hfD]
        rw [consumeAll_growable_new (by rfl) hfE]
        have hdrop : (D ++ E).drop (k2 + D.length) = E.drop k2 := by
          rw [Nat.add_comm, ← List.drop_drop, List.drop_left]
        rw [hdrop]
        simp
    · have hk := listFind_bound hfD
      have hDE : listFind SYNC_CHAR_1 (D ++ E) = some k := listFind_append_some hfD
      rw [consumeAll_growable_new hfC hDE, consumeAll_growable_new hfC hfD]
      have hsplit : (D ++ E).drop k = D.drop k ++ E :=
        List.drop_append_of_le_length (by omega)
      rw [hsplit]
      rcases hrun : runL (D.drop k) cap 0 with ⟨rs1, o1⟩
      have ho1 : o1 ≤ (D.drop k).length := by
        have := @runL_le (D.drop k) cap 0 (by omega)
        rw [hrun] at this
        exact this
      have happ := @runL_append (D.drop k) E cap 0 rs1 o1 hrun
      rw [happ]
      simp only
      rw [run_consume_suffix ho1]
  · have hi := listFind_bound hfC
    rw [consumeAll_growable_some hfC, consumeAll_growable_some hfC,
      ← List.append_assoc]
    rcases hrun : runL (C ++ D) cap i with ⟨rs1, o1⟩
    have ho1 : o1 ≤ (C ++ D).length := by
      have := @runL_le (C ++ D) cap i
        (by simp only [List.length_append]; omega)
      rw [hrun] at this
      exact this
    have happ := @runL_append (C ++ D) E cap i rs1 o1 hrun
    rw [happ]
    simp only
    rw [run_consume_suffix ho1]

theorem consumeAll_growable_shape (C D : List Nat) (cap : Nat) :
    ∃ K, (consumeAll ⟨C, cap, true⟩ D).2 = ⟨K, cap, true⟩ := by
  rcases hfC : listFind SYNC_CHAR_1 C with _ | i
  · rcases hfD : listFind SYNC_CHAR_1 D with _ | k
    · exact ⟨[], by rw [consumeAll_growable_none hfC hfD]⟩
    · exact ⟨_, by rw [consumeAll_growable_new hfC hfD]⟩
  · exact ⟨_, by rw [consumeAll_growable_some hfC]⟩

theorem feedAll_growable_join : ∀ (chunks : List (List Nat)) (C : List Nat)
    (cap : Nat), chunks ≠ [] →
    (feedAll ⟨C, cap, true⟩ chunks).1
      = (consumeAll ⟨C, cap, true⟩ chunks.flatten).1 := by
  intro chunks
  induction chunks with
  | nil => intro C cap h; exact absurd rfl h
  | cons D rest ih =>
    intro C cap h
    cases rest with
    | nil =>
      simp [feedAll, List.flatten]
    | cons D2 rest2 =>
      obtain ⟨K, hK⟩ := consumeAll_growable_shape C D cap
      simp only [feedAll]
      rw [hK]
      have hrest := ih K cap (by simp)
      simp only [feedAll] at hrest
      rw [hrest, ← hK, ← consumeAll_split]
      rw [show (D :: D2 :: rest2).flatten = D ++ (D2 :: rest2).flatten from rfl]

/-- C1 counterexample: with a 10-byte fixed-capacity buffer, the 50 bytes of
five minimal valid frames fed in ONE `consume` call yield a different output
sequence than the same bytes (the chunks concatenate to exactly `fiveFrames`)
fed in five 10-byte chunks with the iterator fully drained in between: one
message versus five.  Chunk-boundary invariance fails for the truncating
fixed buffer because `consume` discards `extend_from_slice`'s truncation
count. -/
theorem c1_cex_fixed_chunking :
    fiveFrames = [minimalFrame, minimalFrame, minimalFrame, minimalFrame,
      minimalFrame].flatten ∧
    (feedAll (fixedBuffer 10) [fiveFrames]).1
      ≠ (feedAll (fixedBuffer 10)
          [minimalFrame, minimalFrame, minimalFrame, minimalFrame,
            minimalFrame]).1 := by
  decide

/-- C1 (amended): for a parser backed by the growable `Vec` buffer (whose
`extend_from_slice` never truncates), feeding any chunk sequence through
successive `consume` calls — fully draining each returned iterator before the
next call — yields exactly the same output sequence as feeding the
concatenation in a single `consume` call. -/
theorem c1_growable_chunk_invariance (chunks : List (List Nat)) :
    (feedAll vecBuffer chunks).1 = (consumeAll vecBuffer chunks.flatten).1 := by
  show (feedAll ⟨[], USIZE_MAX, true⟩ chunks).1
      = (consumeAll ⟨[], USIZE_MAX, true⟩ chunks.flatten).1
  cases chunks with
  | nil =>
    rw [consumeAll_growable_none (by rfl) (by rfl)]
    rfl
  | cons D rest => exact feedAll_growable_join (D :: rest) [] USIZE_MAX (by simp)

/-! ### Claim theorems: buffer-level facts -/

/-- C7: `FixedLinearBuffer::extend_from_slice` copies exactly
`min(capacity - len, input length)` bytes after the existing content, the
returned truncated count plus the stored count equals the input length, and
the buffer's logical length never exceeds its constructed capacity. -/
theorem c7_fixed_extend (data other : List Nat) (cap : Nat)
    (hle : data.length ≤ cap) :
    ((Buffer.mk data cap false).extend_from_slice other).1.data
      = data ++ other.take (min (cap - data.length) other.length) ∧
    ((Buffer.mk data cap false).extend_from_slice other).2
      + (((Buffer.mk data cap false).extend_from_slice other).1.data.length
          - data.length)
      = other.length ∧
    ((Buffer.mk data cap false).extend_from_slice other).1.data.length ≤ cap := by
  simp only [Buffer.extend_from_slice, Bool.false_eq_true, if_false]
  refine ⟨by rw [Nat.min_comm], ?_, ?_⟩ <;>
    simp only [List.length_append, List.length_take] <;> omega

/-- C7 witness: a concrete fixed buffer instance. -/
theorem c7_fixed_extend_witness :
    ((Buffer.mk [1, 2, 3] 5 false).extend_from_slice [4, 5, 6, 7]).1.data
      = [1, 2, 3] ++ [4, 5, 6, 7].take (min (5 - 3) 4) := by
  have h := c7_fixed_extend [1, 2, 3] [4, 5, 6, 7] 5 (by decide)
  simpa using h.1

/-- C10: `consume` silently drops a suffix of `new_data` when the
fixed-capacity buffer lacks room: twenty bytes holding two complete valid
frames fed to a 10-byte fixed buffer yield a single decoded message, no
error of any kind, and an empty buffer (the second frame vanished); the
same bytes fed to the growable buffer yield both messages. -/
theorem c10_silent_truncation :
    (consumeAll (fixedBuffer 10) (minimalFrame ++ minimalFrame)).1
      = [ParseOutput.msg 5 1 [4, 5]] ∧
    (consumeAll (fixedBuffer 10) (minimalFrame ++ minimalFrame)).2.data = [] ∧
    (consumeAll vecBuffer (minimalFrame ++ minimalFrame)).1
      = [ParseOutput.msg 5 1 [4, 5], ParseOutput.msg 5 1 [4, 5]] := by
  decide

/-- C2: evaluating the code at the claimed scenario input: a 10-byte fixed
buffer fed the 50-byte input of five minimal valid frames in ONE `consume`
call yields exactly ONE decoded message (the other four frames are truncated
away by `extend_from_slice` and the truncation count is discarded), not the
five messages asserted by the spec scenario and by the repository's own test
`parser_oom_processes_multiple_small_packets`. -/
theorem c2_five_frames_fixed10 :
    (consumeAll (fixedBuffer 10) fiveFrames).1 = [ParseOutput.msg 5 1 [4, 5]] ∧
    (consumeAll (fixedBuffer 10) fiveFrames).1.length = 1 := by
  decide

/-- C6 counterexample: a parser whose buffered content `[1]` has no sync
byte, fed `new_bytes = B5 62 05` with the sync at offset `k = 0`, ends up
(2-byte fixed capacity) with buffer `[B5, 62]`, NOT `new_bytes[0..] = [B5, 62, 05]`
as the claim states. -/
theorem c6_cex_truncated :
    (Parser.consume (Buffer.mk [1] 2 false) [0xB5, 0x62, 0x05]).1.data
      = [0xB5, 0x62] ∧
    ([0xB5, 0x62] : List Nat) ≠ [0xB5, 0x62, 0x05] := by
  decide

/-- C6 (amended): if the buffered content contains no sync byte, the next
`consume` removes all of it; with sync-free new input the buffer is cleared
entirely and the iterator is empty; with the first sync at offset `k` the
buffer afterwards holds the longest capacity-fitting PREFIX of
`new_bytes[k..]` (all of `new_bytes[k..]` for a growable buffer) and the
iterator starts at offset 0. -/
theorem c6_no_sync_cleared (b : Buffer) (D : List Nat)
    (hb : ∀ x ∈ b.data, x ≠ SYNC_CHAR_1) :
    (listFind SYNC_CHAR_1 D = none →
      Parser.consume b D = (b.clear, 0) ∧ consumeAll b D = ([], b.clear)) ∧
    (∀ k, listFind SYNC_CHAR_1 D = some k →
      (Parser.consume b D).2 = 0 ∧
      (Parser.consume b D).1.data =
        if b.growable then D.drop k else (D.drop k).take b.cap) := by
  have hfind : b.find SYNC_CHAR_1 = none := listFind_eq_none_iff.mpr hb
  constructor
  · intro hD
    have hcons : Parser.consume b D = (b.clear, 0) := by
      simp [Parser.consume, hfind, hD]
    refine ⟨hcons, ?_⟩
    simp [consumeAll, hcons, runL, runF, pnextL, pnextF, Buffer.clear, Buffer.drain]
  · intro k hD
    have hkb : b.len ≤ k + b.len := Nat.le_add_left _ _
    simp only [Parser.consume, hfind, hD, Option.map_some', if_pos hkb,
      Nat.add_sub_cancel, Buffer.clear, Buffer.extend_from_slice]
    constructor
    · trivial
    · by_cases hg : b.growable
      · simp [hg]
      · simp only [hg, Bool.false_eq_true, if_false, List.nil_append, Nat.sub_zero,
          List.length_drop]
        rw [← List.length_drop k D, take_min_length]
        simp

/-- C6 witness: concrete instances for both cases of the amended claim. -/
theorem c6_no_sync_cleared_witness :
    (Parser.consume (Buffer.mk [1, 2] 5 false) [7, 8] = ((Buffer.mk [1, 2] 5 false).clear, 0)) ∧
    (Parser.consume (Buffer.mk [1, 2] 5 false) [0, 0xB5, 9]).1.data
      = ([0, 0xB5, 9].drop 1).take 5 := by
  constructor
  · exact ((c6_no_sync_cleared (Buffer.mk [1, 2] 5 false) [7, 8] (by decide)).1
      (by decide)).1
  · have h := ((c6_no_sync_cleared (Buffer.mk [1, 2] 5 false) [0, 0xB5, 9]
      (by decide)).2 1 (by decide)).2
    simpa using h

/-! ### Candidate-frame decomposition and the scanning claims -/

theorem candidate_find {buf g tail : List Nat} {off : Nat}
    (hsplit : buf.drop off = g ++ SYNC_CHAR_1 :: tail)
    (hg : ∀ x ∈ g, x ≠ SYNC_CHAR_1) :
    listFind SYNC_CHAR_1 (buf.drop off) = some g.length ∧
    (buf.drop off).drop g.length = SYNC_CHAR_1 :: tail ∧
    off < buf.length := by
  refine ⟨?_, ?_, ?_⟩
  · rw [hsplit, listFind_append_none (listFind_eq_none_iff.mpr hg)]
    simp [listFind]
  · rw [hsplit, List.drop_left]
  · have hlen : (buf.drop off).length = buf.length - off := List.length_drop _ _
    rw [hsplit] at hlen
    simp only [List.length_append, List.length_cons] at hlen
    omega

/-- C4: when the declared frame size `length + 8` exceeds the buffer's
`max_capacity`, `next` advances the cursor past exactly the two sync bytes of
the candidate (to `candidate start + 2`) and yields
`OutOfMemory { required_size = length + 8 }`; and (concrete scenario) the
parser remains usable: after the error, a subsequent minimal valid frame in a
later `consume` call is decoded successfully with no manual reset. -/
theorem c4_oom_yield :
    (∀ (buf g rest : List Nat) (cap off cls mid l0 l1 : Nat),
      buf.drop off = g ++ SYNC_CHAR_1 :: SYNC_CHAR_2 :: cls :: mid :: l0 :: l1 :: rest →
      (∀ x ∈ g, x ≠ SYNC_CHAR_1) →
      cap < l0 + 256 * l1 + 8 →
      pnextL buf cap off
        = (some (.perr (.outOfMemory (l0 + 256 * l1 + 8))), off + g.length + 2)) ∧
    feedAll (fixedBuffer 12)
        [[0xB5, 0x62, 0x06, 0x24, 0x08, 0x00, 0, 0, 0, 0, 0, 0], minimalFrame]
      = ([.perr (.outOfMemory 16), .msg 5 1 [4, 5]], fixedBuffer 12) := by
  constructor
  · intro buf g rest cap off cls mid l0 l1 hsplit hg hcap
    obtain ⟨hfind, hmp, hoff⟩ := candidate_find hsplit hg
    have h8 : l0 + 256 * l1 + 6 + 2 = l0 + 256 * l1 + 8 := by omega
    have hscan : scanStep buf cap off
        = .yield (.perr (.outOfMemory (l0 + 256 * l1 + 8))) (off + g.length + 2) := by
      simp only [scanStep, if_pos hoff, hfind, hmp]
      rw [if_neg (by simp only [List.length_cons]; omega),
        if_neg (by simp [List.getD_cons_succ, List.getD_cons_zero]),
        if_neg (by simp only [List.length_cons]; omega),
        if_pos (by simp only [List.getD_cons_succ, List.getD_cons_zero]; omega)]
      simp only [List.getD_cons_succ, List.getD_cons_zero, h8]
    exact pnextL_yield hscan
  · decide

/-- C4 witness: a concrete oversized frame header. -/
theorem c4_oom_yield_witness :
    pnextL [0xB5, 0x62, 1, 2, 0x34, 0x12] 10 0
      = (some (.perr (.outOfMemory 4668)), 2) := by
  have h := c4_oom_yield.1 [0xB5, 0x62, 1, 2, 0x34, 0x12] [] [] 10 0 1 2 0x34 0x12
    (by decide) (by decide) (by decide)
  simpa using h

/-- C8: when the declared payload length fits the buffer capacity but exceeds
`MAX_PAYLOAD_LEN`, `next` advances the cursor past the two sync bytes of the
candidate and resumes scanning — the call's value is exactly that of
re-running the scan from `candidate start + 2`, with no error yielded for
this candidate. -/
theorem c8_oversize_skip (buf g rest : List Nat) (cap off cls mid l0 l1 : Nat)
    (hsplit : buf.drop off
      = g ++ SYNC_CHAR_1 :: SYNC_CHAR_2 :: cls :: mid :: l0 :: l1 :: rest)
    (hg : ∀ x ∈ g, x ≠ SYNC_CHAR_1)
    (hcap : l0 + 256 * l1 + 8 ≤ cap)
    (hmax : MAX_PAYLOAD_LEN < l0 + 256 * l1) :
    pnextL buf cap off = pnextL buf cap (off + g.length + 2) := by
  obtain ⟨hfind, hmp, hoff⟩ := candidate_find hsplit hg
  have hscan : scanStep buf cap off = .skip (off + g.length + 2) := by
    simp only [scanStep, if_pos hoff, hfind, hmp]
    rw [if_neg (by simp only [List.length_cons]; omega),
      if_neg (by simp [List.getD_cons_succ, List.getD_cons_zero]),
      if_neg (by simp only [List.length_cons]; omega),
      if_neg (by simp only [List.getD_cons_succ, List.getD_cons_zero]; omega),
      if_pos (by simp only [List.getD_cons_succ, List.getD_cons_zero]; omega)]
  exact pnextL_skip hscan

/-- C8 witness: a 1500-byte declared payload (greater than
`MAX_PAYLOAD_LEN = 1240`) on an unbounded-capacity parser is skipped with the
cursor advanced past the sync bytes. -/
theorem c8_oversize_skip_witness :
    pnextL [0xB5, 0x62, 0, 0, 0xDC, 0x05] USIZE_MAX 0
      = pnextL [0xB5, 0x62, 0, 0, 0xDC, 0x05] USIZE_MAX 2 := by
  have h := c8_oversize_skip [0xB5, 0x62, 0, 0, 0xDC, 0x05] [] [] USIZE_MAX 0
    0 0 0xDC 0x05 (by decide) (by decide) (by decide) (by decide)
  simpa using h

/-- C5: a complete candidate frame whose computed checksum over class, id,
length and payload differs from its two trailing checksum bytes makes `next`
advance the cursor past only the two sync bytes (to `candidate start + 2`,
not past the claimed frame length) and yield `InvalidChecksum` carrying the
expected (trailing bytes) and computed values. -/
theorem c5_checksum_mismatch (buf g payload rest : List Nat)
    (cap off cls mid l0 l1 cka ckb : Nat)
    (hsplit : buf.drop off = g ++ SYNC_CHAR_1 :: SYNC_CHAR_2 :: cls :: mid :: l0 :: l1
      :: (payload ++ cka :: ckb :: rest))
    (hg : ∀ x ∈ g, x ≠ SYNC_CHAR_1)
    (hlen : payload.length = l0 + 256 * l1)
    (hmax : l0 + 256 * l1 ≤ MAX_PAYLOAD_LEN)
    (hcap : l0 + 256 * l1 + 8 ≤ cap)
    (hck : ubx_checksum (cls :: mid :: l0 :: l1 :: payload) ≠ (cka, ckb)) :
    pnextL buf cap off
      = (some (.perr (.invalidChecksum (cka + 256 * ckb)
          ((ubx_checksum (cls :: mid :: l0 :: l1 :: payload)).1
            + 256 * (ubx_checksum (cls :: mid :: l0 :: l1 :: payload)).2))),
         off + g.length + 2) := by
  obtain ⟨hfind, hmp, hoff⟩ := candidate_find hsplit hg
  have hshape : SYNC_CHAR_1 :: SYNC_CHAR_2 :: cls :: mid :: l0 :: l1
        :: (payload ++ cka :: ckb :: rest)
      = ([SYNC_CHAR_1, SYNC_CHAR_2, cls, mid, l0, l1] ++ payload)
        ++ cka :: ckb :: rest := by
    simp
  have hplen : ([SYNC_CHAR_1, SYNC_CHAR_2, cls, mid, l0, l1] ++ payload).length
      = 6 + (l0 + 256 * l1) := by
    simp only [List.length_append, List.length_cons, List.length_nil, hlen]
    try omega
  have hckarg : ((SYNC_CHAR_1 :: SYNC_CHAR_2 :: cls :: mid :: l0 :: l1
        :: (payload ++ cka :: ckb :: rest)).drop 2).take (4 + (l0 + 256 * l1))
      = cls :: mid :: l0 :: l1 :: payload := by
    show ((cls :: mid :: l0 :: l1 :: (payload ++ cka :: ckb :: rest)) :
      List Nat).take (4 + (l0 + 256 * l1)) = _
    rw [show (cls :: mid :: l0 :: l1 :: (payload ++ cka :: ckb :: rest) : List Nat)
        = ([cls, mid, l0, l1] ++ payload) ++ cka :: ckb :: rest by simp,
      show 4 + (l0 + 256 * l1) = ([cls, mid, l0, l1] ++ payload).length by
        simp only [List.length_append, List.length_cons, List.length_nil, hlen]
        try omega,
      List.take_left]
    simp
  have hgetA : (SYNC_CHAR_1 :: SYNC_CHAR_2 :: cls :: mid :: l0 :: l1
        :: (payload ++ cka :: ckb :: rest)).getD (6 + (l0 + 256 * l1)) 0 = cka := by
    rw [hshape, List.getD_append_right _ _ _ _ (by omega : _ ≤ 6 + (l0 + 256 * l1)),
      show 6 + (l0 + 256 * l1)
        - ([SYNC_CHAR_1, SYNC_CHAR_2, cls, mid, l0, l1] ++ payload).length = 0 by
        omega]
    rfl
  have hplen2 : ([SYNC_CHAR_2, cls, mid, l0, l1] ++ payload).length
      = 5 + (l0 + 256 * l1) := by
    simp only [List.length_append, List.length_cons, List.length_nil, hlen]
    try omega
  have hgetB : (SYNC_CHAR_2 :: cls :: mid :: l0 :: l1
        :: (payload ++ cka :: ckb :: rest)).getD (6 + (l0 + 256 * l1)) 0 = ckb := by
    rw [show (SYNC_CHAR_2 :: cls :: mid :: l0 :: l1
          :: (payload ++ cka :: ckb :: rest) : List Nat)
        = ([SYNC_CHAR_2, cls, mid, l0, l1] ++ payload) ++ cka :: ckb :: rest by simp,
      List.getD_append_right _ _ _ _ (by omega : _ ≤ 6 + (l0 + 256 * l1)),
      show 6 + (l0 + 256 * l1)
        - ([SYNC_CHAR_2, cls, mid, l0, l1] ++ payload).length = 1 by omega]
    rfl
  have hscan : scanStep buf cap off
      = .yield (.perr (.invalidChecksum (cka + 256 * ckb)
          ((ubx_checksum (cls :: mid :: l0 :: l1 :: payload)).1
            + 256 * (ubx_checksum (cls :: mid :: l0 :: l1 :: payload)).2)))
        (off + g.length + 2) := by
    simp only [scanStep, if_pos hoff, hfind, hmp]
    rw [if_neg (by simp only [List.length_cons]; omega),
      if_neg (by simp [List.getD_cons_succ, List.getD_cons_zero]),
      if_neg (by simp only [List.length_cons]; omega)]
    simp only [List.getD_cons_succ, List.getD_cons_zero]
    rw [if_neg (by omega : ¬ cap < l0 + 256 * l1 + 6 + 2),
      if_neg (by omega : ¬ MAX_PAYLOAD_LEN < l0 + 256 * l1),
      if_neg (by
        simp only [List.length_cons, List.length_append]
        omega),
      hckarg, hgetA, hgetB, if_pos hck]
  exact pnextL_yield hscan

/-- C5 witness: the minimal frame with its last checksum byte corrupted
(`0x39` instead of `0x38`). -/
theorem c5_checksum_mismatch_witness :
    pnextL [0xB5, 0x62, 0x05, 0x01, 0x02, 0x00, 0x04, 0x05, 0x11, 0x39] USIZE_MAX 0
      = (some (.perr (.invalidChecksum 0x3911 0x3811)), 2) := by
  have h := c5_checksum_mismatch
    [0xB5, 0x62, 0x05, 0x01, 0x02, 0x00, 0x04, 0x05, 0x11, 0x39] [] [0x04, 0x05] []
    USIZE_MAX 0 0x05 0x01 0x02 0x00 0x11 0x39
    (by decide) (by decide) (by decide) (by decide) (by decide) (by decide)
  simpa using h

/-- C3 counterexample: feed `B5 B5 00 B5 62` to a fresh growable parser.  The
scan skips the false-positive `B5 B5` (cursor 2), then stalls on the
incomplete candidate starting at index 3 (fewer than 6 bytes available).  The
claim says the cursor is left exactly at the candidate start (3), so disposal
would drain the `00` at index 2 and keep `[B5, 62]`; the code leaves the
cursor at 2 and disposal keeps `[00, B5, 62]`. -/
theorem c3_cex_cursor_before_candidate :
    pnextL [0xB5, 0xB5, 0x00, 0xB5, 0x62] USIZE_MAX 0 = (none, 2) ∧
    listFind SYNC_CHAR_1 (List.drop 2 [0xB5, 0xB5, 0x00, 0xB5, 0x62]) = some 1 ∧
    (consumeAll vecBuffer [0xB5, 0xB5, 0x00, 0xB5, 0x62]).2.data
      = [0x00, 0xB5, 0x62] ∧
    ([0x00, 0xB5, 0x62] : List Nat) ≠ [0xB5, 0x62] := by
  decide

/-- C3 (amended): when `next` ends the sequence because a candidate frame is
incomplete (fewer than 6 bytes from the candidate sync marker, or fewer than
`length + 8` bytes from the candidate start), the cursor is left at the
position from which the final scan began — at or before the candidate start,
with no sync byte strictly in between (the retained bytes before the
candidate are exactly the sync-free scan prefix `g`), so the next `consume`
call's sync search resumes exactly at the candidate. -/
theorem c3_incomplete_stall (buf g tail : List Nat) (cap off : Nat)
    (hsplit : buf.drop off = g ++ SYNC_CHAR_1 :: tail)
    (hg : ∀ x ∈ g, x ≠ SYNC_CHAR_1)
    (hstall : tail = [] ∨ (tail.getD 0 0 = SYNC_CHAR_2 ∧ tail.length ≤ 4) ∨
      (∃ cls mid l0 l1 rest2,
        tail = SYNC_CHAR_2 :: cls :: mid :: l0 :: l1 :: rest2 ∧
        l0 + 256 * l1 + 8 ≤ cap ∧ l0 + 256 * l1 ≤ MAX_PAYLOAD_LEN ∧
        rest2.length < l0 + 256 * l1 + 2)) :
    pnextL buf cap off = (none, off) ∧
    listFind SYNC_CHAR_1 (buf.drop off) = some g.length := by
  obtain ⟨hfind, hmp, hoff⟩ := candidate_find hsplit hg
  have hscan : scanStep buf cap off = .stall := by
    simp only [scanStep, if_pos hoff, hfind, hmp]
    rcases hstall with h0 | ⟨h62, hle⟩ |
      ⟨cls, mid, l0, l1, rest2, htail, hcap, hmax, hincomp⟩
    · subst h0
      rw [if_pos (by simp)]
    · cases tail with
      | nil => simp [List.getD, SYNC_CHAR_2] at h62
      | cons t ts =>
        simp only [List.getD_cons_zero] at h62
        simp only [List.length_cons] at hle
        rw [if_neg (by simp only [List.length_cons]; omega),
          if_neg (by simp [List.getD_cons_succ, List.getD_cons_zero, h62]),
          if_pos (by simp only [List.length_cons]; omega)]
    · subst htail
      rw [if_neg (by simp only [List.length_cons]; omega),
        if_neg (by simp [List.getD_cons_succ, List.getD_cons_zero]),
        if_neg (by simp only [List.length_cons]; omega)]
      simp only [List.getD_cons_succ, List.getD_cons_zero]
      rw [if_neg (by omega : ¬ cap < l0 + 256 * l1 + 6 + 2),
        if_neg (by omega : ¬ MAX_PAYLOAD_LEN < l0 + 256 * l1),
        if_pos (by simp only [List.length_cons]; omega)]
  exact ⟨pnextL_stall hscan, hfind⟩

/-- C3 witness: the amended claim at the counterexample's stall state. -/
theorem c3_incomplete_stall_witness :
    pnextL [0xB5, 0xB5, 0x00, 0xB5, 0x62] USIZE_MAX 2 = (none, 2) ∧
    listFind SYNC_CHAR_1 (List.drop 2 [0xB5, 0xB5, 0x00, 0xB5, 0x62]) = some 1 := by
  have h := c3_incomplete_stall [0xB5, 0xB5, 0x00, 0xB5, 0x62] [0x00] [0x62]
    USIZE_MAX 2 (by decide) (by decide) (Or.inr (Or.inl (by decide)))
  simpa using h

/-- C9: the cursor `off` never exceeds the buffer length: at iterator
creation (`Parser.consume`), after every `next` call (`pnextL` preserves the
bound), and hence the guard in the iterator's `drop` implementation always
holds, so disposal always drains exactly `[0, off)` (third conjunct: the
`if` in `consumeAll` always resolves to the drain branch). -/
theorem c9_cursor_invariant :
    (∀ (b : Buffer) (D : List Nat),
      (Parser.consume b D).2 ≤ (Parser.consume b D).1.data.length) ∧
    (∀ (buf : List Nat) (cap off : Nat), off ≤ buf.length →
      (pnextL buf cap off).2 ≤ buf.length) ∧
    (∀ (b : Buffer) (D : List Nat),
      consumeAll b D
        = ((runL (Parser.consume b D).1.data (Parser.consume b D).1.cap
            (Parser.consume b D).2).1,
           (Parser.consume b D).1.drain
            (runL (Parser.consume b D).1.data (Parser.consume b D).1.cap
              (Parser.consume b D).2).2)) := by
  have hcons : ∀ (b : Buffer) (D : List Nat),
      (Parser.consume b D).2 ≤ (Parser.consume b D).1.data.length := by
    intro b D
    rcases hfb : b.find SYNC_CHAR_1 with _ | i
    · rcases hfD : listFind SYNC_CHAR_1 D with _ | k
      · simp [Parser.consume, hfb, hfD]
      · simp [Parser.consume, hfb, hfD, Nat.le_add_left]
    · rw [Buffer.find] at hfb
      have hi := listFind_bound hfb
      simp only [Parser.consume, Buffer.find, hfb]
      rw [if_neg (show ¬ b.len ≤ i by
        simp only [Buffer.len]
        omega)]
      simp only [Buffer.extend_from_slice]
      by_cases hgrow : b.growable
      · simp only [hgrow, if_pos]
        simp only [List.length_append]
        omega
      · simp only [hgrow, Bool.false_eq_true, if_false]
        simp only [List.length_append]
        omega
  refine ⟨hcons, ?_, ?_⟩
  · intro buf cap off h
    exact pnextL_le h
  · intro b D
    have hg : (runL (Parser.consume b D).1.data (Parser.consume b D).1.cap
        (Parser.consume b D).2).2 ≤ (Parser.consume b D).1.data.length :=
      runL_le (hcons b D)
    simp only [consumeAll]
    rw [if_pos hg]

/-- C9 witness: concrete instances of the first two conjuncts. -/
theorem c9_cursor_invariant_witness :
    (Parser.consume (Buffer.mk [1, 0xB5] 4 false) [9, 9, 9]).2
      ≤ (Parser.consume (Buffer.mk [1, 0xB5] 4 false) [9, 9, 9]).1.data.length ∧
    (pnextL [0xB5, 0x62] 10 1).2 ≤ ([0xB5, 0x62] : List Nat).length := by
  constructor
  · exact c9_cursor_invariant.1 (Buffer.mk [1, 0xB5] 4 false) [9, 9, 9]
  · exact c9_cursor_invariant.2.1 [0xB5, 0x62] 10 1 (by decide)

end UbloxSpec
